import Mathlib

/-!
# A verification development for `dfw` (`src/process.rs`)

This file gives a shallow embedding of the configuration-processing module of
the `dfw` firewall framework and proves properties of it.

Modelling conventions:
* Rust `String`/`&str` values are modelled as `List Char` (abbreviated `Str`);
  the UTF-8 byte length of a string is computed with `utf8Len`, and byte
  slicing `&s[..n]` with `takeBytes` (which is `none` exactly when the slice
  would panic inside a multi-byte character).
* `failure::Error` values are modelled as plain strings; fallible functions
  return `Except Err _`.
* `std::collections::HashMap` is modelled as an association list with unique
  keys (`mapInsert` replaces in place on an existing key, `mapFind` looks up).
* The `Process` trait method of a policy node is modelled as a function
  `ProcessContext → Except Err (Option (List Rule))`; the generic `Option<T>`
  and `Vec<T>` implementations become the combinators `optionProcess` and
  `vecProcess`.
* `ProcessContext::process` is embedded together with the trace of argument
  lists handed to the backend's `apply` associated function, so that theorems
  can speak about which `apply` invocations a cycle performs.
-/

/-- Errors of the `failure` crate, modelled as plain strings. -/
abbrev Err := String

/-- Rust strings modelled as lists of unicode scalar values. -/
abbrev Str := List Char

/-- `HashMap::insert` on the association-list model: replace the value of an
existing key in place, otherwise append the new binding at the end. -/
def mapInsert {K V : Type} [DecidableEq K] : List (K × V) → K → V → List (K × V)
  | [], k, v => [(k, v)]
  | (k', v') :: rest, k, v =>
    if k = k' then (k, v) :: rest else (k', v') :: mapInsert rest k v

/-- `HashMap` lookup on the association-list model. -/
def mapFind {K V : Type} [DecidableEq K] : List (K × V) → K → Option V
  | [], _ => none
  | (k', v') :: rest, k => if k = k' then some v' else mapFind rest k

/-- `shiplift::rep::Container`, restricted to the fields `process.rs` reads:
the runtime identity and the list of names. -/
structure Container where
  id : Str
  names : List Str
deriving DecidableEq

/-- `shiplift::rep::NetworkDetails`, restricted to the fields `process.rs`
reads: the network identity and its human-readable name. -/
structure NetworkDetails where
  id : Str
  name : Str
deriving DecidableEq

/-- The `defaults` section of the configuration, restricted to the field
`ProcessContext::new` reads. -/
structure GlobalDefaults where
  external_network_interfaces : Option (List Str)
deriving DecidableEq

/-- The parsed top-level configuration (`DFW<B>`), restricted to the field
`ProcessContext::new` reads. -/
structure DFWConfig where
  global_defaults : GlobalDefaults
deriving DecidableEq

/-- The state of `ProcessContext` (`process.rs` lines 104–116), without the
runtime handle and the logger, which are I/O resources. -/
structure ProcessContext where
  container_map : List (Str × Container)
  network_map : List (Str × NetworkDetails)
  external_network_interfaces : Option (List Str)
  dry_run : Bool
deriving DecidableEq

/-- UTF-8 byte length of a string (`str::len`). -/
def utf8Len (s : Str) : Nat := (s.map Char.utf8Size).sum

/-- Byte slicing `&s[..n]`: `some` prefix when byte index `n` falls on a
character boundary within the string, `none` when the slice panics. -/
def takeBytes : Str → Nat → Option Str
  | _, 0 => some []
  | [], _ + 1 => none
  | c :: cs, n + 1 =>
    if c.utf8Size ≤ n + 1 then (takeBytes cs (n + 1 - c.utf8Size)).map (c :: ·)
    else none

/-- `get_bridge_name` (`process.rs` lines 209–214): bail out when the byte
length is below 12, otherwise prepend `"br-"` to the first 12 bytes. The
outer `Option` models the possible slicing panic. -/
def get_bridge_name (network_id : Str) : Option (Except Err Str) :=
  if utf8Len network_id < 12 then
    some (Except.error "network has to be longer than 12 characters")
  else
    (takeBytes network_id 12).map (fun p => Except.ok ("br-".toList ++ p))

/-- `str::trim_start_matches('/')`: drop every leading `'/'`. -/
def trimStartSlashes (s : Str) : Str := s.dropWhile (· == '/')

/-- Inner loop of `get_container_map` (`process.rs` lines 241–246): insert one
container into the map under each of its names with leading slashes stripped. -/
def insertContainerNames (m : List (Str × Container)) (c : Container) :
    List (Str × Container) :=
  c.names.foldl (fun m' name => mapInsert m' (trimStartSlashes name) c) m

/-- `get_container_map` (`process.rs` lines 238–250): fold every container
into the map under each of its names with leading slashes stripped. -/
def get_container_map (containers : List Container) :
    Except Err (List (Str × Container)) :=
  Except.ok (containers.foldl insertContainerNames [])

/-- `get_network_map` (`process.rs` lines 252–265): fold every network into
the map under its name; report `none` when the resulting map is empty. -/
def get_network_map (networks : List NetworkDetails) :
    Except Err (Option (List (Str × NetworkDetails))) :=
  let network_map := networks.foldl (fun m n => mapInsert m n.name n) []
  if network_map.isEmpty then Except.ok none else Except.ok (some network_map)

/-- `[&str]::join(sep)`. -/
def rustJoin (sep : Str) : List Str → Str
  | [] => []
  | [s] => s
  | s :: rest => s ++ sep ++ rustJoin sep rest

/-- `generate_marker` (`process.rs` lines 267–269). -/
def generate_marker (components : List Str) : Str :=
  "DFW-MARKER:".toList ++ rustJoin ";".toList components

/-- `impl Process for Option<T>` (`process.rs` lines 71–83), with the wrapped
node's `process` method passed as `p`. -/
def optionProcess {α Rule : Type}
    (p : α → ProcessContext → Except Err (Option (List Rule))) :
    Option α → ProcessContext → Except Err (Option (List Rule))
  | some t, ctx => p t ctx
  | none, _ => Except.ok none

/-- Loop of `impl Process for Vec<T>` (`process.rs` lines 92–97): iterate over
the elements, appending each present sub-rule list to the accumulator and
propagating the first error. -/
def vecProcessGo {α Rule : Type}
    (p : α → ProcessContext → Except Err (Option (List Rule)))
    (ctx : ProcessContext) : List α → List Rule → Except Err (List Rule)
  | [], rules => Except.ok rules
  | x :: xs, rules =>
    match p x ctx with
    | Except.error e => Except.error e
    | Except.ok none => vecProcessGo p ctx xs rules
    | Except.ok (some sub) => vecProcessGo p ctx xs (rules ++ sub)

/-- `impl Process for Vec<T>` (`process.rs` lines 85–101): run the loop with
an empty accumulator and wrap the result in `Some`. -/
def vecProcess {α Rule : Type}
    (p : α → ProcessContext → Except Err (Option (List Rule)))
    (ctx : ProcessContext) (xs : List α) : Except Err (Option (List Rule)) :=
  match vecProcessGo p ctx xs [] with
  | Except.error e => Except.error e
  | Except.ok rules => Except.ok (some rules)

/-- `ProcessContext::new` (`process.rs` lines 124–171), with the results of
the two runtime queries (container list, network list) passed as inputs. -/
def ProcessContext.new (dfw : DFWConfig) (containers : List Container)
    (networks : List NetworkDetails) (dry_run : Bool) : Except Err ProcessContext :=
  match get_container_map containers with
  | Except.error e => Except.error e
  | Except.ok container_map =>
    match get_network_map networks with
    | Except.error e => Except.error e
    | Except.ok none => Except.error "no networks found"
    | Except.ok (some network_map) =>
      Except.ok
        { container_map := container_map
          network_map := network_map
          external_network_interfaces := dfw.global_defaults.external_network_interfaces
          dry_run := dry_run }

/-- `ProcessContext::process` (`process.rs` lines 174–181), instrumented with
the trace of rule lists handed to `B::apply`: `deriv` is the `Process`
implementation of the top-level policy (`DFW<B>`), `apply` the backend's
associated function. The second component records every `apply` invocation
with its argument. -/
def ProcessContext.process {Rule : Type}
    (deriv : ProcessContext → Except Err (Option (List Rule)))
    (apply : List Rule → ProcessContext → Except Err Unit)
    (ctx : ProcessContext) : Except Err Unit × List (List Rule) :=
  match deriv ctx with
  | Except.error e => (Except.error e, [])
  | Except.ok none => (Except.ok (), [])
  | Except.ok (some rules) =>
    match apply rules ctx with
    | Except.error e => (Except.error e, [rules])
    | Except.ok _ => (Except.ok (), [rules])

/-- A concrete processing context for concrete evaluations. -/
def baseCtx : ProcessContext :=
  { container_map := []
    network_map := []
    external_network_interfaces := none
    dry_run := false }

/-- `baseCtx` with `dry_run` set. -/
def dryRunCtx : ProcessContext := { baseCtx with dry_run := true }

/-- A concrete container named `/web`. -/
def webC : Container := { id := "w1".toList, names := ["/web".toList] }

/-- A concrete container named `/db`. -/
def dbC : Container := { id := "d1".toList, names := ["/db".toList] }

/-- A second concrete container also named `/web`. -/
def web2C : Container := { id := "w2".toList, names := ["/web".toList] }

/-- A concrete network. -/
def net1 : NetworkDetails := { id := "n1".toList, name := "bridge".toList }

/-- A concrete configuration with no external network interfaces. -/
def dfw0 : DFWConfig := { global_defaults := { external_network_interfaces := none } }

/-! ## Lemmas about the association-list map -/

/-- Looking up the just-inserted key returns the new value. -/
theorem mapFind_mapInsert_self {K V : Type} [DecidableEq K]
    (m : List (K × V)) (k : K) (v : V) :
    mapFind (mapInsert m k v) k = some v := by
  induction m with
  | nil => simp [mapInsert, mapFind]
  | cons hd tl ih =>
    obtain ⟨k', v'⟩ := hd
    by_cases h : k = k' <;> simp [mapInsert, mapFind, h, ih]

/-- Inserting under a different key does not change a lookup. -/
theorem mapFind_mapInsert_ne {K V : Type} [DecidableEq K]
    (m : List (K × V)) (k k' : K) (v : V) (h : k ≠ k') :
    mapFind (mapInsert m k' v) k = mapFind m k := by
  induction m with
  | nil => simp [mapInsert, mapFind, h]
  | cons hd tl ih =>
    obtain ⟨a, b⟩ := hd
    by_cases ha : k' = a
    · subst ha
      simp [mapInsert, mapFind, h]
    · by_cases hk : k = a <;> simp [mapInsert, mapFind, ha, hk, ih]

/-- Insertion never produces the empty map. -/
theorem mapInsert_ne_nil {K V : Type} [DecidableEq K]
    (m : List (K × V)) (k : K) (v : V) : mapInsert m k v ≠ [] := by
  cases m with
  | nil => simp [mapInsert]
  | cons hd tl =>
    obtain ⟨k', v'⟩ := hd
    by_cases h : k = k' <;> simp [mapInsert, h]

/-! ## The marker format (C8) -/

/-- Rust's `join` is concatenation with the separator interspersed. -/
theorem rustJoin_eq_flatten_intersperse (sep : Str) (l : List Str) :
    rustJoin sep l = (l.intersperse sep).flatten := by
  induction l with
  | nil => rfl
  | cons s rest ih =>
    cases rest with
    | nil => simp [rustJoin, List.intersperse]
    | cons t rest' =>
      simp only [rustJoin, List.intersperse] at *
      simp [ih, List.append_assoc]

/-- C8: `generate_marker` deterministically produces the fixed tag, a colon,
and the components joined with the `";"` delimiter, i.e. the format
`<TAG>:<component1>;<component2>;...`; two calls with equal component lists
return equal strings. -/
theorem generate_marker_format :
    (∀ components : List Str,
      generate_marker components =
        "DFW-MARKER".toList ++ ":".toList ++
          (components.intersperse ";".toList).flatten)
    ∧ ∀ components components' : List Str, components = components' →
        generate_marker components = generate_marker components' := by
  constructor
  · intro cs
    show "DFW-MARKER:".toList ++ rustJoin ";".toList cs = _
    rw [rustJoin_eq_flatten_intersperse]
    rfl
  · intro cs cs' h
    rw [h]

/-- Witness for C8 at concrete component lists. -/
theorem generate_marker_format_witness :
    generate_marker ["ab".toList, "c".toList] =
      "DFW-MARKER".toList ++ ":".toList ++
        ((["ab".toList, "c".toList] : List Str).intersperse ";".toList).flatten
    ∧ generate_marker ["x".toList] = generate_marker ["x".toList] :=
  ⟨generate_marker_format.1 _, generate_marker_format.2 _ _ rfl⟩

/-! ## The `Option<T>` implementation of `Process` (C7) -/

/-- C7: processing an absent optional policy node succeeds with no rules, and
processing a present node returns exactly the result of processing the
wrapped node. -/
theorem optionProcess_spec {α Rule : Type}
    (p : α → ProcessContext → Except Err (Option (List Rule)))
    (ctx : ProcessContext) :
    optionProcess p none ctx = Except.ok none ∧
      ∀ t : α, optionProcess p (some t) ctx = p t ctx :=
  ⟨rfl, fun _ => rfl⟩

/-! ## Lemmas about byte slicing (C3, C9) -/

/-- Slicing a string at the byte length of a prefix yields that prefix. -/
theorem takeBytes_append (p rest : Str) :
    takeBytes (p ++ rest) (utf8Len p) = some p := by
  induction p with
  | nil => simp [takeBytes, utf8Len]
  | cons c p' ih =>
    have hsz : 0 < c.utf8Size := Char.utf8Size_pos c
    have hlen : utf8Len (c :: p') = c.utf8Size + utf8Len p' := by
      simp [utf8Len]
    rcases Nat.exists_eq_succ_of_ne_zero
        (show utf8Len (c :: p') ≠ 0 by omega) with ⟨k, hk⟩
    rw [List.cons_append, hk]
    simp only [takeBytes]
    rw [if_pos (show c.utf8Size ≤ k + 1 by omega)]
    have hk' : k + 1 - c.utf8Size = utf8Len p' := by omega
    rw [hk', ih]
    rfl

/-- On a string of single-byte characters, byte slicing is `List.take`. -/
theorem takeBytes_ascii (s : Str) :
    ∀ n : Nat, (∀ c ∈ s, Char.utf8Size c = 1) → n ≤ s.length →
      takeBytes s n = some (s.take n) := by
  induction s with
  | nil =>
    intro n _ hn
    have hn0 : n = 0 := by simpa using hn
    subst hn0
    simp [takeBytes]
  | cons c cs ih =>
    intro n hs hn
    cases n with
    | zero => simp [takeBytes]
    | succ k =>
      have h1 : c.utf8Size = 1 := hs c (List.mem_cons_self c cs)
      simp only [takeBytes]
      rw [if_pos (by omega)]
      have hk : k + 1 - c.utf8Size = k := by omega
      rw [hk, ih k (fun c' hc' => hs c' (List.mem_cons_of_mem c hc'))
        (by simpa using hn)]
      rfl

/-- On a string of single-byte characters, the byte length is the character
count. -/
theorem utf8Len_ascii (s : Str) (h : ∀ c ∈ s, Char.utf8Size c = 1) :
    utf8Len s = s.length := by
  induction s with
  | nil => rfl
  | cons c cs ih =>
    have h1 : c.utf8Size = 1 := h c (List.mem_cons_self c cs)
    have := ih (fun c' hc' => h c' (List.mem_cons_of_mem c hc'))
    simp [utf8Len] at this ⊢
    omega

/-- C3 counterexample: the string of seven two-byte characters `"ααααααα"` has
fewer than 12 characters, yet `get_bridge_name` does not fail with the
too-short error — it returns `"br-"` followed by its first 12 *bytes* (six
characters), because the source measures `str::len` in bytes. -/
theorem get_bridge_name_chars_counterexample :
    ("ααααααα".toList : Str).length < 12 ∧
      get_bridge_name "ααααααα".toList = some (Except.ok "br-αααααα".toList) :=
  ⟨by decide, rfl⟩

/-- C3 (amended): for every identifier whose UTF-8 byte length is below 12,
`get_bridge_name` fails with the invalid-identifier error; for every
identifier that decomposes as a prefix of exactly 12 bytes followed by a
rest, it returns `"br-"` followed by that 12-byte prefix. -/
theorem get_bridge_name_bytes :
    (∀ s : Str, utf8Len s < 12 →
      get_bridge_name s =
        some (Except.error "network has to be longer than 12 characters"))
    ∧ ∀ p rest : Str, utf8Len p = 12 →
        get_bridge_name (p ++ rest) = some (Except.ok ("br-".toList ++ p)) := by
  constructor
  · intro s h
    simp [get_bridge_name, h]
  · intro p rest h
    have hlen : utf8Len (p ++ rest) = utf8Len p + utf8Len rest := by
      simp [utf8Len]
    rw [get_bridge_name, if_neg (by omega), ← h, takeBytes_append]
    rfl

/-- Witness for C3 (amended) at the spec's own example inputs. -/
theorem get_bridge_name_bytes_witness :
    get_bridge_name "short".toList =
      some (Except.error "network has to be longer than 12 characters")
    ∧ get_bridge_name ("1234567890ab".toList ++ []) =
        some (Except.ok ("br-".toList ++ "1234567890ab".toList)) :=
  ⟨get_bridge_name_bytes.1 _ (by decide),
   get_bridge_name_bytes.2 "1234567890ab".toList [] (by decide)⟩

/-- C9 counterexample: `"aαααααα"` has byte length 13 ≥ 12, but byte index 12
falls inside the final two-byte character, so the slice `&network_id[..12]`
panics — modelled as `get_bridge_name` returning `none`. -/
theorem get_bridge_name_panic_counterexample :
    12 ≤ utf8Len "aαααααα".toList ∧ get_bridge_name "aαααααα".toList = none :=
  ⟨by decide, rfl⟩

/-- C9 (amended): on identifiers consisting solely of single-byte (ASCII)
characters — which all Docker-assigned hexadecimal identifiers are —
`get_bridge_name` never panics: it always returns a result or an error. -/
theorem get_bridge_name_total_on_ascii (s : Str)
    (h : ∀ c ∈ s, Char.utf8Size c = 1) :
    ∃ r : Except Err Str, get_bridge_name s = some r := by
  by_cases hlt : utf8Len s < 12
  · exact ⟨Except.error "network has to be longer than 12 characters",
      by simp [get_bridge_name, hlt]⟩
  · have hlen : utf8Len s = s.length := utf8Len_ascii s h
    refine ⟨Except.ok ("br-".toList ++ s.take 12), ?_⟩
    rw [get_bridge_name, if_neg hlt, takeBytes_ascii s 12 h (by omega)]
    rfl

/-- Witness for C9 (amended) at a concrete 13-byte ASCII identifier. -/
theorem get_bridge_name_total_on_ascii_witness :
    ∃ r : Except Err Str, get_bridge_name "1234567890abc".toList = some r :=
  get_bridge_name_total_on_ascii "1234567890abc".toList (by decide)

/-! ## The `Vec<T>` implementation of `Process` (C6, C10) -/

/-- When every element succeeds, the loop of the `Vec<T>` implementation
appends the concatenation of the present sub-rule lists, in element order,
to the accumulator. -/
theorem vecProcessGo_eq_of_results {α Rule : Type}
    (p : α → ProcessContext → Except Err (Option (List Rule)))
    (ctx : ProcessContext) :
    ∀ (xs : List α) (results : List (Option (List Rule))) (acc : List Rule),
      xs.map (fun x => p x ctx) = results.map Except.ok →
      vecProcessGo p ctx xs acc =
        Except.ok (acc ++ (results.map (fun r => r.getD [])).flatten) := by
  intro xs
  induction xs with
  | nil =>
    intro results acc h
    have : results = [] := by
      cases results with
      | nil => rfl
      | cons r rs => simp at h
    subst this
    simp [vecProcessGo]
  | cons x xs ih =>
    intro results acc h
    cases results with
    | nil => simp at h
    | cons r rs =>
      simp only [List.map_cons, List.cons.injEq] at h
      obtain ⟨hx, hrest⟩ := h
      cases r with
      | none =>
        simp only [vecProcessGo, hx]
        rw [ih rs acc hrest]
        simp
      | some l =>
        simp only [vecProcessGo, hx]
        rw [ih rs (acc ++ l) hrest]
        simp

/-- C6: when every element of a vector of policy nodes processes successfully,
the `Vec<T>` implementation returns the concatenation of the children's rule
lists in declaration order, each child's internal order preserved (an absent
child result contributes nothing). -/
theorem vecProcess_concat {α Rule : Type}
    (p : α → ProcessContext → Except Err (Option (List Rule)))
    (ctx : ProcessContext) (xs : List α)
    (results : List (Option (List Rule)))
    (h : xs.map (fun x => p x ctx) = results.map Except.ok) :
    vecProcess p ctx xs =
      Except.ok (some ((results.map (fun r => r.getD [])).flatten)) := by
  rw [vecProcess, vecProcessGo_eq_of_results p ctx xs results [] h]
  simp

/-- Witness for C6: two children contributing `[1, 2]` and `[2, 3]`
concatenate, in order, to `[1, 2, 2, 3]`. -/
theorem vecProcess_concat_witness :
    vecProcess (fun (n : Nat) (_ : ProcessContext) => Except.ok (some [n, n + 1]))
        baseCtx [1, 2] =
      Except.ok (some ((([some [1, 2], some [2, 3]] :
        List (Option (List Nat))).map (fun r => r.getD [])).flatten)) :=
  vecProcess_concat _ baseCtx [1, 2] [some [1, 2], some [2, 3]] rfl

/-- When every element succeeds, the loop of the `Vec<T>` implementation
succeeds with the accumulator extended by some list, which is empty when
every element yielded no rules. -/
theorem vecProcessGo_exists_ok {α Rule : Type}
    (p : α → ProcessContext → Except Err (Option (List Rule)))
    (ctx : ProcessContext) :
    ∀ (xs : List α) (acc : List Rule),
      (∀ x ∈ xs, ∃ r, p x ctx = Except.ok r) →
      ∃ l : List Rule, vecProcessGo p ctx xs acc = Except.ok (acc ++ l) ∧
        ((∀ x ∈ xs, p x ctx = Except.ok none) → l = []) := by
  intro xs
  induction xs with
  | nil =>
    intro acc _
    exact ⟨[], by simp [vecProcessGo], fun _ => rfl⟩
  | cons x xs ih =>
    intro acc h
    obtain ⟨r, hr⟩ := h x (List.mem_cons_self x xs)
    cases r with
    | none =>
      obtain ⟨l, hl, hnone⟩ := ih acc (fun y hy => h y (List.mem_cons_of_mem x hy))
      refine ⟨l, ?_, ?_⟩
      · simp only [vecProcessGo, hr]
        exact hl
      · intro hall
        exact hnone fun y hy => hall y (List.mem_cons_of_mem x hy)
    | some s =>
      obtain ⟨l, hl, _⟩ := ih (acc ++ s)
        (fun y hy => h y (List.mem_cons_of_mem x hy))
      refine ⟨s ++ l, ?_, ?_⟩
      · simp only [vecProcessGo, hr]
        rw [hl, List.append_assoc]
      · intro hall
        have := hall x (List.mem_cons_self x xs)
        rw [hr] at this
        simp at this

/-- C10: when every element of a vector of policy nodes processes
successfully, the `Vec<T>` implementation never returns the absent outcome —
it returns a present rule list, which is empty when the vector is empty or
when every child yields no rules. -/
theorem vecProcess_never_none {α Rule : Type}
    (p : α → ProcessContext → Except Err (Option (List Rule)))
    (ctx : ProcessContext) (xs : List α)
    (h : ∀ x ∈ xs, ∃ r, p x ctx = Except.ok r) :
    ∃ l : List Rule, vecProcess p ctx xs = Except.ok (some l) ∧
      (xs = [] → l = []) ∧
      ((∀ x ∈ xs, p x ctx = Except.ok none) → l = []) := by
  obtain ⟨l, hl, hnone⟩ := vecProcessGo_exists_ok p ctx xs [] h
  refine ⟨l, ?_, ?_, hnone⟩
  · rw [vecProcess, hl]
    simp
  · rintro rfl
    simp only [vecProcessGo] at hl
    simpa using hl.symm

/-- Witness for C10: a one-element vector whose only child yields no rules
produces the present empty rule list. -/
theorem vecProcess_never_none_witness :
    ∃ l : List Nat,
      vecProcess (fun (_ : Nat) (_ : ProcessContext) => Except.ok none)
          baseCtx [5] = Except.ok (some l) ∧
        ([5] = ([] : List Nat) → l = []) ∧
        ((∀ x ∈ [5], (fun (_ : Nat) (_ : ProcessContext) =>
            (Except.ok none : Except Err (Option (List Nat)))) x baseCtx =
              Except.ok none) → l = []) :=
  vecProcess_never_none _ baseCtx [5] (fun _ _ => ⟨none, rfl⟩)

/-! ## The container map (C4) -/

/-- Lookup after inserting one container under all of its stripped names:
returns that container on any of its stripped names, and is otherwise
unchanged. -/
theorem mapFind_foldNames (c : Container) :
    ∀ (names : List Str) (m : List (Str × Container)) (k : Str),
      mapFind (names.foldl (fun m' name => mapInsert m' (trimStartSlashes name) c) m) k =
        if k ∈ names.map trimStartSlashes then some c else mapFind m k := by
  intro names
  induction names with
  | nil => simp
  | cons nm rest ih =>
    intro m k
    simp only [List.foldl_cons, List.map_cons, List.mem_cons]
    rw [ih]
    by_cases hk : k ∈ rest.map trimStartSlashes
    · simp [hk]
    · by_cases he : k = trimStartSlashes nm
      · simp [hk, he, mapFind_mapInsert_self]
      · simp [hk, he, mapFind_mapInsert_ne _ _ _ _ he]

/-- A key bound in the map stays bound (to some container) as further
containers are folded in. -/
theorem mapFind_foldContainers_isSome :
    ∀ (cs : List Container) (m : List (Str × Container)) (k : Str) (v : Container),
      mapFind m k = some v →
      ∃ v', mapFind (cs.foldl insertContainerNames m) k = some v' := by
  intro cs
  induction cs with
  | nil => exact fun m k v h => ⟨v, h⟩
  | cons c cs ih =>
    intro m k v h
    simp only [List.foldl_cons]
    by_cases hk : k ∈ c.names.map trimStartSlashes
    · exact ih _ k c (by rw [insertContainerNames, mapFind_foldNames c _ m k, if_pos hk])
    · exact ih _ k v (by rw [insertContainerNames, mapFind_foldNames c _ m k, if_neg hk, h])

/-- Folding in containers none of which carries the key leaves the lookup of
that key unchanged. -/
theorem mapFind_foldContainers_not_mem :
    ∀ (cs : List Container) (m : List (Str × Container)) (k : Str),
      (∀ c ∈ cs, k ∉ c.names.map trimStartSlashes) →
      mapFind (cs.foldl insertContainerNames m) k = mapFind m k := by
  intro cs
  induction cs with
  | nil =>
    intro m k _
    rfl
  | cons c cs ih =>
    intro m k h
    simp only [List.foldl_cons]
    rw [ih _ k (fun c' hc' => h c' (List.mem_cons_of_mem c hc')),
      insertContainerNames, mapFind_foldNames c _ m k,
      if_neg (h c (List.mem_cons_self c cs))]

/-- C4: the container map binds every container name with the leading
separators stripped, and each such key holds the respective container's
record, the container processed later winning on a collision: whenever the
input list splits as `xs ++ c :: ys` with `n` a name of `c` and no container
of `ys` carrying the same stripped name, the key `n`-stripped maps to exactly
the record of `c`. -/
theorem get_container_map_spec :
    (∀ (containers : List Container) (m : List (Str × Container)),
        get_container_map containers = Except.ok m →
        ∀ c ∈ containers, ∀ n ∈ c.names,
          ∃ c', mapFind m (trimStartSlashes n) = some c')
    ∧ ∀ (xs : List Container) (c : Container) (ys : List Container)
        (n : Str) (m : List (Str × Container)),
        n ∈ c.names →
        (∀ c' ∈ ys, trimStartSlashes n ∉ c'.names.map trimStartSlashes) →
        get_container_map (xs ++ c :: ys) = Except.ok m →
        mapFind m (trimStartSlashes n) = some c := by
  constructor
  · intro containers m hm c hc n hn
    obtain ⟨l1, l2, rfl⟩ := List.append_of_mem hc
    have hm' : m = (l1 ++ c :: l2).foldl insertContainerNames [] := by
      simpa [get_container_map] using hm.symm
    subst hm'
    rw [List.foldl_append, List.foldl_cons]
    refine mapFind_foldContainers_isSome l2 _ (trimStartSlashes n) c ?_
    rw [insertContainerNames, mapFind_foldNames c _ _ _,
      if_pos (List.mem_map_of_mem trimStartSlashes hn)]
  · intro xs c ys n m hn hys hm
    have hm' : m = (xs ++ c :: ys).foldl insertContainerNames [] := by
      simpa [get_container_map] using hm.symm
    subst hm'
    rw [List.foldl_append, List.foldl_cons,
      mapFind_foldContainers_not_mem ys _ (trimStartSlashes n) hys,
      insertContainerNames, mapFind_foldNames c _ _ _,
      if_pos (List.mem_map_of_mem trimStartSlashes hn)]

/-- Witness for C4: for containers `/web` then `/db`, the key `web` holds the
`/web` record (not merely some record) and the key `db` is bound; appending a
second `/web` container makes the key `web` hold the later record. -/
theorem get_container_map_spec_witness :
    mapFind [("web".toList, webC), ("db".toList, dbC)]
        (trimStartSlashes "/web".toList) = some webC
    ∧ mapFind [("web".toList, web2C), ("db".toList, dbC)]
        (trimStartSlashes "/web".toList) = some web2C
    ∧ ∃ c', mapFind [("web".toList, webC), ("db".toList, dbC)]
        (trimStartSlashes "/db".toList) = some c' :=
  ⟨get_container_map_spec.2 [] webC [dbC] "/web".toList _
      (by decide) (by decide) rfl,
   get_container_map_spec.2 [webC, dbC] web2C [] "/web".toList _
      (by decide) (by decide) rfl,
   get_container_map_spec.1 [webC, dbC] _ rfl dbC (by decide)
      "/db".toList (by decide)⟩

/-! ## The network map and snapshot construction (C5) -/

/-- Folding networks into a non-empty map keeps it non-empty. -/
theorem networkFold_ne_nil :
    ∀ (ns : List NetworkDetails) (m : List (Str × NetworkDetails)),
      m ≠ [] → ns.foldl (fun m' n => mapInsert m' n.name n) m ≠ [] := by
  intro ns
  induction ns with
  | nil => exact fun m h => h
  | cons n ns ih =>
    intro m _
    simp only [List.foldl_cons]
    exact ih _ (mapInsert_ne_nil m n.name n)

/-- C5: snapshot construction fails with the no-networks error exactly when
the network list returned by the runtime is empty; on every non-empty network
list it succeeds and the resulting name-to-network mapping is non-empty. -/
theorem new_fails_iff_networks_empty
    (dfw : DFWConfig) (containers : List Container)
    (networks : List NetworkDetails) (d : Bool) :
    (networks = [] →
      ProcessContext.new dfw containers networks d =
        Except.error "no networks found")
    ∧ (networks ≠ [] → ∃ ctx : ProcessContext,
        ProcessContext.new dfw containers networks d = Except.ok ctx ∧
          ctx.network_map ≠ []) := by
  constructor
  · rintro rfl
    rfl
  · intro hne
    cases networks with
    | nil => exact absurd rfl hne
    | cons n ns =>
      have hmap : (n :: ns).foldl (fun m nw => mapInsert m nw.name nw) [] ≠ [] := by
        simp only [List.foldl_cons]
        exact networkFold_ne_nil ns _ (mapInsert_ne_nil [] n.name n)
      have hget : get_network_map (n :: ns) =
          Except.ok (some ((n :: ns).foldl (fun m nw => mapInsert m nw.name nw) [])) := by
        have hne' : ¬((ns.foldl (fun m' nw => mapInsert m' nw.name nw)
            (mapInsert [] n.name n)).isEmpty = true) := by
          rw [List.isEmpty_iff]
          exact networkFold_ne_nil ns _ (mapInsert_ne_nil [] n.name n)
        simp only [get_network_map, List.foldl_cons, if_neg hne']
      exact ⟨{ container_map := containers.foldl insertContainerNames []
               network_map := (n :: ns).foldl (fun m nw => mapInsert m nw.name nw) []
               external_network_interfaces :=
                 dfw.global_defaults.external_network_interfaces
               dry_run := d },
        by simp [ProcessContext.new, get_container_map, hget], hmap⟩

/-- Witness for C5: the empty network list fails; a one-network list succeeds
with a non-empty mapping. -/
theorem new_fails_iff_networks_empty_witness :
    ProcessContext.new dfw0 [] [] false = Except.error "no networks found"
    ∧ ∃ ctx : ProcessContext,
        ProcessContext.new dfw0 [] [net1] false = Except.ok ctx ∧
          ctx.network_map ≠ [] :=
  ⟨(new_fails_iff_networks_empty dfw0 [] [] false).1 rfl,
   (new_fails_iff_networks_empty dfw0 [] [net1] false).2 (by simp)⟩

/-! ## The orchestrated cycle (C1, C2) -/

/-- The trace of `B::apply` invocations performed by one cycle is a function
of the derivation result alone: one call with the derived list when it is
present, no call otherwise. -/
theorem process_trace_eq {Rule : Type}
    (deriv : ProcessContext → Except Err (Option (List Rule)))
    (apply : List Rule → ProcessContext → Except Err Unit)
    (ctx : ProcessContext) :
    (ProcessContext.process deriv apply ctx).2 =
      match deriv ctx with
      | Except.ok (some rules) => [rules]
      | Except.ok none => []
      | Except.error _ => [] := by
  cases hd : deriv ctx with
  | error e => simp [ProcessContext.process, hd]
  | ok o =>
    cases o with
    | none => simp [ProcessContext.process, hd]
    | some rules =>
      cases ha : apply rules ctx <;> simp [ProcessContext.process, hd, ha]

/-- C1 counterexample: with `dry_run` set on the context, a derivation
yielding one rule still leads `ProcessContext::process` to invoke the
backend's `apply` — the trace of `apply` invocations is non-empty, because
`process` never consults `dry_run`. -/
theorem process_dry_run_counterexample :
    dryRunCtx.dry_run = true ∧
      (ProcessContext.process (fun _ => Except.ok (some [(0 : Nat)]))
        (fun _ _ => Except.ok ()) dryRunCtx).2 = [[0]] :=
  ⟨rfl, rfl⟩

/-- C1 (amended): `ProcessContext::process` computes the derived rule list
and hands every present list to the backend's `apply` regardless of
`dry_run` — the flag is carried in the context for the backend to honour.
For any derivation that is insensitive to `dry_run`, the trace of `apply`
invocations (and hence the derived rule list) is identical between dry-run
and normal mode. -/
theorem process_dry_run_same_path {Rule : Type}
    (deriv : ProcessContext → Except Err (Option (List Rule)))
    (apply : List Rule → ProcessContext → Except Err Unit)
    (ctx : ProcessContext)
    (h : deriv { ctx with dry_run := true } = deriv { ctx with dry_run := false }) :
    (ProcessContext.process deriv apply { ctx with dry_run := true }).2 =
        (ProcessContext.process deriv apply { ctx with dry_run := false }).2
      ∧ ∀ rules : List Rule,
          deriv { ctx with dry_run := true } = Except.ok (some rules) →
          (ProcessContext.process deriv apply { ctx with dry_run := true }).2 =
            [rules] := by
  constructor
  · rw [process_trace_eq, process_trace_eq, h]
  · intro rules hr
    rw [process_trace_eq, hr]

/-- Witness for C1 (amended) at a concrete derivation and backend: the trace
of `apply` invocations is the same with and without `dry_run`. -/
theorem process_dry_run_same_path_witness :
    (ProcessContext.process (fun _ => Except.ok (some [(1 : Nat)]))
        (fun _ _ => Except.ok ()) { baseCtx with dry_run := true }).2 =
      (ProcessContext.process (fun _ => Except.ok (some [(1 : Nat)]))
        (fun _ _ => Except.ok ()) { baseCtx with dry_run := false }).2 :=
  (process_dry_run_same_path (fun _ => Except.ok (some [(1 : Nat)]))
    (fun _ _ => Except.ok ()) baseCtx rfl).1

/-- C2 counterexample: a derivation yielding the *present empty* rule list
(`Some` of zero rules) still leads `ProcessContext::process` to invoke the
backend's `apply`, with the empty list as argument — the guard is on
presence, not on non-emptiness. -/
theorem process_empty_rules_counterexample :
    (ProcessContext.process (fun _ => Except.ok (some ([] : List Nat)))
      (fun _ _ => Except.ok ()) baseCtx).2 = [[]] :=
  rfl

/-- C2 (amended): `ProcessContext::process` hands the derived rule list to
the backend's `apply` exactly when the derivation yields a present (`Some`)
list — including the present empty list — and a derivation yielding the
absent outcome (`None`) performs no `apply` call and returns success. -/
theorem process_apply_iff_some {Rule : Type}
    (deriv : ProcessContext → Except Err (Option (List Rule)))
    (apply : List Rule → ProcessContext → Except Err Unit)
    (ctx : ProcessContext) :
    (deriv ctx = Except.ok none →
      ProcessContext.process deriv apply ctx = (Except.ok (), []))
    ∧ ∀ rules : List Rule, deriv ctx = Except.ok (some rules) →
        (ProcessContext.process deriv apply ctx).2 = [rules] := by
  constructor
  · intro h
    rw [ProcessContext.process, h]
  · intro rules hr
    rw [process_trace_eq, hr]

/-- Witness for C2 (amended): an absent derivation result yields success with
no `apply` call; a present singleton list is handed to `apply`. -/
theorem process_apply_iff_some_witness :
    ProcessContext.process (fun _ => Except.ok (none : Option (List Nat)))
        (fun _ _ => Except.ok ()) baseCtx = (Except.ok (), [])
    ∧ (ProcessContext.process (fun _ => Except.ok (some [(2 : Nat)]))
        (fun _ _ => Except.ok ()) baseCtx).2 = [[2]] :=
  ⟨(process_apply_iff_some (fun _ => Except.ok none)
      (fun _ _ => Except.ok ()) baseCtx).1 rfl,
   (process_apply_iff_some (fun _ => Except.ok (some [(2 : Nat)]))
      (fun _ _ => Except.ok ()) baseCtx).2 [2] rfl⟩
